import Mathlib

/-!
Verification of the parascan stack-detection pipeline.

The Go sources are shallowly embedded: strings become `List Char`, Go maps
become association lists (iteration order modelled as list order), filesystem
and subprocess access become explicit oracle records, and fallible actions
return `Except`/`Option`.  Function and structure names follow the Go source
(`src/detectors/services.go`, `src/detectors/files.go`, `src/unnamed/part_000`,
`src/unnamed/part_003`).
-/

namespace Parascan

/-- Strings are modelled as lists of characters. -/
abbrev Str := List Char

/-! ## Go `strings` package primitives -/

/-- `strings.HasPrefix(s, p)`: `p` is a leading run of `s`. -/
def hasPrefixB : Str → Str → Bool
  | [], _ => true
  | _ :: _, [] => false
  | p :: ps, c :: cs => p == c && hasPrefixB ps cs

/-- `strings.HasSuffix(s, suf)`: Go computes `len(s) >= len(suf) && s[len(s)-len(suf):] == suf`. -/
def hasSuffixB (suf s : Str) : Bool :=
  decide (suf.length ≤ s.length) && (s.drop (s.length - suf.length) == suf)

/-- `strings.Contains(s, sub)`: `sub` occurs contiguously somewhere in `s`. -/
def containsB : Str → Str → Bool
  | [], sub => sub.isEmpty
  | c :: t, sub => hasPrefixB sub (c :: t) || containsB t sub

/-- `strings.TrimSuffix(s, suf)`: remove one trailing copy of `suf` when present. -/
def trimSuffix (s suf : Str) : Str :=
  if hasSuffixB suf s then s.take (s.length - suf.length) else s

/-- Scanning loop of `strings.ReplaceAll(s, old, new)`: replace each
non-overlapping occurrence of `old`, scanning left to right.  The scan consumes
at least one character per step, so running it with the remaining length as
structural fuel performs the full left-to-right pass. -/
def replaceAllAux (old new : Str) : Nat → Str → Str
  | _, [] => []
  | 0, l => l
  | fuel + 1, c :: rest =>
    if hasPrefixB old (c :: rest) then
      new ++ replaceAllAux old new fuel (rest.drop (old.length - 1))
    else
      c :: replaceAllAux old new fuel rest

/-- `strings.ReplaceAll(s, old, new)`. -/
def replaceAll (s old new : Str) : Str := replaceAllAux old new s.length s

/-- `unicode.IsSpace` on the code points produced by git output
(ASCII whitespace plus NEL and NBSP). -/
def isSpaceGo (c : Char) : Bool :=
  c == ' ' || c == '\t' || c == '\n' || c == '\u000B' || c == '\u000C' ||
    c == '\r' || c == '\u0085' || c == '\u00A0'

/-- `strings.TrimSpace(s)`: drop whitespace from both ends. -/
def trimSpace (s : Str) : Str :=
  ((s.dropWhile isSpaceGo).reverse.dropWhile isSpaceGo).reverse

/-- `true` when no character is a newline; the regexp metacharacter `.`
in Go's RE2 does not match `\n`. -/
def noNewline (l : Str) : Bool := l.all (fun c => !(c == '\n'))

/-- Split at the first colon: `breakColon s = some (a, b)` when `s = a ++ ":" ++ b`
with `a` colon-free.  This is how the anchored regexp group `([^:]+):` divides its
input (the class `[^:]` cannot cross a colon, so the group ends at the first one). -/
def breakColon : Str → Option (Str × Str)
  | [] => none
  | c :: cs =>
    if c == ':' then some ([], cs)
    else
      match breakColon cs with
      | some (a, b) => some (c :: a, b)
      | none => none

/-! ## Repository origin detector (`src/detectors/services.go`)

`convertToHTTPSURL` applies two anchored RE2 patterns and a prefix test:

* `^git@([^:]+):(.+)\.git$`  — SSH remote with a `.git` tail,
* `^git@([^:]+):(.+)$`       — SSH remote without it,
* otherwise an `http://`/`https://` remote has one `.git` suffix trimmed,
* any other string passes through unchanged.

Matching an anchored pattern is deterministic: the host group is the text before
the first colon, and `\.git$` pins the trailing four characters, so the path
group is everything in between (it must be non-empty and, being matched by `.+`,
newline-free; the host class `[^:]` does match newlines). -/

/-- Capture groups of `^git@([^:]+):(.+)\.git$` applied to `s`,
`none` when the pattern does not match. -/
def sshMatchGit (s : Str) : Option (Str × Str) :=
  if hasPrefixB "git@".data s then
    match breakColon (s.drop 4) with
    | some (host, rest) =>
      if !host.isEmpty && hasSuffixB ".git".data rest && decide (5 ≤ rest.length) &&
          noNewline (rest.take (rest.length - 4)) then
        some (host, rest.take (rest.length - 4))
      else none
    | none => none
  else none

/-- Capture groups of `^git@([^:]+):(.+)$` applied to `s`. -/
def sshMatchAny (s : Str) : Option (Str × Str) :=
  if hasPrefixB "git@".data s then
    match breakColon (s.drop 4) with
    | some (host, rest) =>
      if !host.isEmpty && !rest.isEmpty && noNewline rest then some (host, rest)
      else none
    | none => none
  else none

/-- `convertToHTTPSURL` from `src/detectors/services.go`. -/
def convertToHTTPSURL (s : Str) : Str :=
  match sshMatchGit s with
  | some (host, repoPath) => "https://".data ++ host ++ "/".data ++ repoPath
  | none =>
    match sshMatchAny s with
    | some (host, repoPath) => "https://".data ++ host ++ "/".data ++ repoPath
    | none =>
      if hasPrefixB "http://".data s || hasPrefixB "https://".data s then
        trimSuffix s ".git".data
      else s

/-- Environment of `GitRepositoryDetector.Detect`: whether `git rev-parse --git-dir`
succeeds, and the outcome of `git remote get-url origin` (raw stdout, or an error
when the subprocess fails — in particular when no origin remote is configured). -/
structure GitEnv where
  isGitRepo : Bool
  remoteOutput : Except Unit Str

/-- `getGitOriginURL`: trim the subprocess output, propagate its error. -/
def getGitOriginURL (env : GitEnv) : Except Unit Str :=
  match env.remoteOutput with
  | .error e => .error e
  | .ok out => .ok (trimSpace out)

/-- `GitRepositoryDetector.Detect` from `src/detectors/services.go`: empty result
outside a repository; the remote-read error is returned as the detector's error;
a non-empty normalized origin is published under the `"repo"` key. -/
def gitDetect (env : GitEnv) : Except Unit (List (Str × Str)) :=
  if !env.isGitRepo then .ok []
  else
    match getGitOriginURL env with
    | .error e => .error e
    | .ok originURL =>
      if !originURL.isEmpty then .ok [("repo".data, convertToHTTPSURL originURL)]
      else .ok []

/-! ## Manifest scanner and service resolver (`src/unnamed/part_003`)

`analyzeProjectDependencies` reads the filesystem through `filepath.Glob` and
`ioutil.ReadFile`; those two primitives are the `FS` oracle below.  A glob error
makes the pattern contribute no matches (the Go loop `continue`s), so an erroring
glob is modelled by an empty match list. -/

/-- Filesystem oracle: `glob` is `filepath.Glob(filepath.Join(projectPath, pattern))`
(an error collapsed to no matches), `read` is `ioutil.ReadFile` (`none` on error). -/
structure FS where
  glob : Str → List Str
  read : Str → Option Str

/-- `ServiceData`: one `data/services/*.yml` entry (`stacks` maps a language to
its confirming package names). -/
structure ServiceData where
  name : Str
  url : Str
  Stacks : List (Str × List Str)
deriving DecidableEq

/-- `PackageInfo`: a confirmed package name and the manifest it came from. -/
structure PackageInfo where
  name : Str
  file : Str
deriving DecidableEq

/-- `ServiceDetection`: a service confirmed in one language. -/
structure ServiceDetection where
  name : Str
  language : Str
  packages : List PackageInfo
deriving DecidableEq

/-- `DetectionResult`: per-language outcome of the dependency analysis. -/
structure DetectionResult where
  language : Str
  files : List Str
  services : List ServiceDetection
deriving DecidableEq

/-- `PackageManager`: the manifest file patterns of one package manager. -/
structure PackageManager where
  files : List Str
deriving DecidableEq

/-- `Language` catalog entry (the `api` field plays no part in detection). -/
structure Language where
  packageManagers : List (Str × PackageManager)
deriving DecidableEq

/-- `StackDependencyFiles`: the language catalog. -/
structure StackDependencyFiles where
  languages : List (Str × Language)
deriving DecidableEq

/-- `filepath.Base` restricted to the slash-free relative paths produced here:
the segment after the last `/`.  (`analyzeFile` passes the result on to
`isPackageInFile`, which ignores it.) -/
def filepathBase (p : Str) : Str :=
  (p.reverse.takeWhile (fun c => !(c == '/'))).reverse

/-- `isPackageInFile` from `src/unnamed/part_003` (lines 1007–1011): a plain
`strings.Contains` of the package name in the file content; the file name and
language parameters are unused. -/
def isPackageInFile (content fileName packageName language : Str) : Bool :=
  containsB content packageName

/-- Per-service body of the `analyzeFile` loop: the packages of `serviceName`
declared for `language` that pass `isPackageInFile`, wrapped in a detection
when at least one matched. -/
def analyzeFileStep (content fileName filePath language serviceName : Str)
    (sd : ServiceData) : List ServiceDetection :=
  match List.lookup language sd.Stacks with
  | some packages =>
    let foundPackages := packages.filterMap fun pkg =>
      if isPackageInFile content fileName pkg language then
        some ⟨pkg, filePath⟩
      else none
    if foundPackages.isEmpty then [] else [⟨serviceName, language, foundPackages⟩]
  | none => []

/-- The `for serviceName, serviceData := range servicesData` loop of `analyzeFile`,
appending detections in iteration order. -/
def analyzeFileLoop (content fileName filePath language : Str) :
    List (Str × ServiceData) → List ServiceDetection
  | [] => []
  | (serviceName, sd) :: rest =>
    analyzeFileStep content fileName filePath language serviceName sd ++
      analyzeFileLoop content fileName filePath language rest

/-- `analyzeFile` from `src/unnamed/part_003` (lines 970–1005).  `content?` is
the `ioutil.ReadFile` outcome; a read error yields no detections. -/
def analyzeFile (content? : Option Str) (filePath language : Str)
    (servicesData : List (Str × ServiceData)) : List ServiceDetection :=
  match content? with
  | none => []
  | some content =>
    analyzeFileLoop content (filepathBase filePath) filePath language servicesData

/-- Insertion-order deduplication (the Go code stores matches in a
`map[string]bool` before analysing each file once). -/
def dedup (l : List Str) : List Str :=
  l.foldl (fun acc x => if x ∈ acc then acc else acc ++ [x]) []

/-- `packageMap[pkg.Name] = pkg` on an association list keyed by package name:
overwrite in place, append when new. -/
def upsertPkg : List PackageInfo → PackageInfo → List PackageInfo
  | [], p => [p]
  | q :: rest, p => if q.name == p.name then p :: rest else q :: upsertPkg rest p

/-- The package-merge of `analyzeProjectDependencies`: existing then new packages
through a name-keyed map, duplicates collapsing to the later entry. -/
def mergePackages (oldPkgs newPkgs : List PackageInfo) : List PackageInfo :=
  (oldPkgs ++ newPkgs).foldl upsertPkg []

/-- `servicesMap[service.Name]` update: merge the packages into an existing entry
of the same name, otherwise append the new detection. -/
def insertService : List (Str × ServiceDetection) → ServiceDetection →
    List (Str × ServiceDetection)
  | [], svc => [(svc.name, svc)]
  | (k, existing) :: rest, svc =>
    if k == svc.name then
      (k, { existing with packages := mergePackages existing.packages svc.packages }) :: rest
    else
      (k, existing) :: insertService rest svc

/-- Fold a file's detections into the services map, in order. -/
def insertServices : List (Str × ServiceDetection) → List ServiceDetection →
    List (Str × ServiceDetection)
  | m, [] => m
  | m, svc :: rest => insertServices (insertService m svc) rest

/-- The per-language file loop of `analyzeProjectDependencies`: analyse each
found file and accumulate the services map. -/
def servicesMapLoop (fs : FS) (language : Str) (servicesData : List (Str × ServiceData)) :
    List Str → List (Str × ServiceDetection) → List (Str × ServiceDetection)
  | [], m => m
  | file :: rest, m =>
    servicesMapLoop fs language servicesData rest
      (insertServices m (analyzeFile (fs.read file) file language servicesData))

/-- Dependency-file collection for one language: every package manager's
patterns, globbed and deduplicated. -/
def collectFoundFiles (fs : FS) (langData : Language) : List Str :=
  dedup ((langData.packageManagers.map fun pm => (pm.2.files.map fs.glob).flatten).flatten)

/-- Body of the `for _, language := range languages` loop of
`analyzeProjectDependencies`: a fresh services map is created for this language
(`servicesMap := make(...)` inside the loop), filled from this language's
manifests only, and emitted when anything was found. -/
def analyzeLanguage (fs : FS) (language : Str) (stackData : StackDependencyFiles)
    (servicesData : List (Str × ServiceData)) : List DetectionResult :=
  let langData := (List.lookup language stackData.languages).getD ⟨[]⟩
  let foundFiles := collectFoundFiles fs langData
  let sMap := servicesMapLoop fs language servicesData foundFiles []
  let services := sMap.map (·.2)
  if foundFiles.isEmpty && services.isEmpty then []
  else [⟨language, foundFiles, services⟩]

/-- `analyzeProjectDependencies` from `src/unnamed/part_003` (lines 895–968):
one loop pass per language; merging happens only within a language. -/
def analyzeProjectDependencies (fs : FS) (languages : List Str)
    (stackData : StackDependencyFiles) (servicesData : List (Str × ServiceData)) :
    List DetectionResult :=
  match languages with
  | [] => []
  | language :: rest =>
    analyzeLanguage fs language stackData servicesData ++
      analyzeProjectDependencies fs rest stackData servicesData

/-- Every package stored in a services map is traceable to one of the
contributing per-file detections: same service name, same package entry. -/
def PackagesFrom (m : List (Str × ServiceDetection)) (D : List ServiceDetection) : Prop :=
  ∀ kv ∈ m, ∀ pi ∈ (kv.2).packages,
    ∃ d ∈ D, d.name = (kv.2).name ∧ pi ∈ d.packages

/-- Every package confirmed by a contributing per-file detection is retained in
the services map, keyed by its service name and found by package name (the
name-keyed package merge keeps the union of names; a duplicate name keeps the
later file's entry). -/
def PackagesKept (m : List (Str × ServiceDetection)) (D : List ServiceDetection) : Prop :=
  ∀ d ∈ D, ∀ pi ∈ d.packages,
    ∃ kv ∈ m, (kv.2).name = d.name ∧ ∃ q ∈ (kv.2).packages, q.name = pi.name

/-! ## Detection coordinator (`handleSniff`, `src/unnamed/part_003` lines 744–777)

A detector is a function from the context's published results to either an error
or a result map.  `handleSniff` threads a single context through phase 1 and
hands its final value, read-only, to phase 2. -/

/-- A detection result map / the published context map. -/
abbrev KV := List (Str × Str)

/-- A detector as run by `handleSniff`: it sees `ctx.Results` and returns a
result map or an error. -/
abbrev Det := KV → Except Unit KV

/-- `allResults[key] = value` on an association list: overwrite the first entry
with that key, append otherwise. -/
def upsert : KV → Str → Str → KV
  | [], k, v => [(k, v)]
  | (k', v') :: rest, k, v =>
    if k' == k then (k', v) :: rest else (k', v') :: upsert rest k v

/-- The `for key, value := range results` merge loop. -/
def mergeInto (m : KV) : KV → KV
  | [] => m
  | (k, v) :: rest => mergeInto (upsert m k v) rest

/-- Coordinator state: the final output map and the context's published map. -/
structure ScanState where
  allResults : KV
  ctxResults : KV
deriving DecidableEq

/-- Phase-1 loop: an erroring detector is skipped; a successful result is merged
into both `allResults` and `ctx.Results`. -/
def runPhase1 : List Det → ScanState → ScanState
  | [], s => s
  | d :: rest, s =>
    match d s.ctxResults with
    | .error _ => runPhase1 rest s
    | .ok results =>
      runPhase1 rest ⟨mergeInto s.allResults results, mergeInto s.ctxResults results⟩

/-- Phase-2 loop: an erroring detector is skipped; a successful result is merged
into `allResults` only. -/
def runPhase2 : List Det → ScanState → ScanState
  | [], s => s
  | d :: rest, s =>
    match d s.ctxResults with
    | .error _ => runPhase2 rest s
    | .ok results => runPhase2 rest ⟨mergeInto s.allResults results, s.ctxResults⟩

/-- The two-phase pipeline of `handleSniff`: phase 1 from empty state, then
phase 2 over the populated context. -/
def handleSniff (phase1 phase2 : List Det) : ScanState :=
  runPhase2 phase2 (runPhase1 phase1 ⟨[], []⟩)

/-! ## Generic technology detector, category-grouped variant
(`src/detectors/files.go`, context-aware `FilesDetector`)

The catalog groups technologies by category; within a category the detector
collects every technology whose file patterns match, and when several match it
keeps the first one whose hosting matches the published `"repo"` value.
`os.Stat` and `filepath.Glob` are the `FSView` oracle (taking the pattern
relative to the project root; a glob error collapses to no matches). -/

namespace FilesGo

/-- `FilePattern` from `src/detectors/files.go`: file patterns plus URL-building
fields; absent YAML fields are empty strings, as in Go. -/
structure FilePattern where
  files : List Str
  urlTemplate : Str
  githubURLTemplate : Str
  fallbackURL : Str
deriving DecidableEq

/-- Filesystem oracle of the files detector: `statIsDir p` is `os.Stat` on
`filepath.Join(dir, p)` (`none` on error, otherwise whether the entry is a
directory); `glob` as in `FS`. -/
structure FSView where
  statIsDir : Str → Option Bool
  glob : Str → List Str

/-- `hasMatchingFile`: directory probe for patterns ending in `/`, glob for
patterns with a separator or a wildcard, plain stat otherwise. -/
def hasMatchingFile (fsv : FSView) (pattern : Str) : Bool :=
  if hasSuffixB "/".data pattern then
    match fsv.statIsDir (trimSuffix pattern "/".data) with
    | some isDir => isDir
    | none => false
  else if containsB pattern "/".data then !(fsv.glob pattern).isEmpty
  else if containsB pattern "*".data then !(fsv.glob pattern).isEmpty
  else (fsv.statIsDir pattern).isSome

/-- `hasMatchingFiles`: any pattern matches. -/
def hasMatchingFiles (fsv : FSView) (patterns : List Str) : Bool :=
  patterns.any (hasMatchingFile fsv)

/-- `isCITechnology`: membership in the hard-coded CI set. -/
def isCITechnology (technology : Str) : Bool :=
  technology == "gitlab".data || technology == "github-actions".data ||
    technology == "bitbucket".data || technology == "azure-devops".data ||
    technology == "jenkins".data || technology == "circleci".data

/-- `isGitHubRepo`: the repo URL mentions `github.com`. -/
def isGitHubRepo (repoURL : Str) : Bool := containsB repoURL "github.com".data

/-- `isGitLabRepo`: the repo URL mentions `gitlab.com`. -/
def isGitLabRepo (repoURL : Str) : Bool := containsB repoURL "gitlab.com".data

/-- `isMatchingHosting`: hard-coded hosting test per technology; an empty repo
URL never matches, unknown technologies never match. -/
def isMatchingHosting (technology repoURL : Str) : Bool :=
  if repoURL.isEmpty then false
  else if technology == "github-actions".data then isGitHubRepo repoURL
  else if technology == "gitlab".data then isGitLabRepo repoURL
  else if technology == "bitbucket".data then containsB repoURL "bitbucket.org".data
  else false

/-- `strings.TrimRight(s, "/")`. -/
def trimRightSlashes (s : Str) : Str :=
  (s.reverse.dropWhile (fun c => c == '/')).reverse

/-- `extractRepoName`: the last `/`-separated segment of the trimmed URL. -/
def extractRepoName (repoURL : Str) : Str :=
  (List.splitOn '/' (trimRightSlashes repoURL)).getLastD []

/-- `FilesDetector.buildURL` from `src/detectors/files.go`: GitHub template
special case, hard-coded CI/hosting mismatch fallbacks, then plain `{repo}`
substitution; without a repo or a template, the fallback URL or the raw id. -/
def buildURL (pattern : FilePattern) (technology : Str) (contextResults : KV) : Str :=
  match List.lookup "repo".data contextResults with
  | some repoURL =>
    if !pattern.urlTemplate.isEmpty then
      if !pattern.githubURLTemplate.isEmpty && isGitHubRepo repoURL then
        replaceAll (replaceAll pattern.githubURLTemplate "{repo}".data repoURL)
          "{repo_name}".data (extractRepoName repoURL)
      else if isCITechnology technology && isGitHubRepo repoURL &&
          !(technology == "github-actions".data) then
        if !pattern.fallbackURL.isEmpty then pattern.fallbackURL else technology
      else if isCITechnology technology && isGitLabRepo repoURL &&
          !(technology == "gitlab".data) then
        if !pattern.fallbackURL.isEmpty then pattern.fallbackURL else technology
      else replaceAll pattern.urlTemplate "{repo}".data repoURL
    else if !pattern.fallbackURL.isEmpty then pattern.fallbackURL else technology
  | none => if !pattern.fallbackURL.isEmpty then pattern.fallbackURL else technology

/-- One category row of `FilesDetector.Detect`: collect the technologies whose
files match; with several candidates the first one passing `isMatchingHosting`
against `ctx.Results["repo"]` (empty string when absent) wins, and with no such
candidate nothing is emitted; a single candidate is emitted directly. -/
def detectCategory (fsv : FSView) (category : Str)
    (technologies : List (Str × FilePattern)) (ctx : KV) : KV :=
  let found := technologies.filter fun tp => hasMatchingFiles fsv tp.2.files
  if 1 < found.length then
    match found.find? fun tp =>
        isMatchingHosting tp.1 ((List.lookup "repo".data ctx).getD []) with
    | some tp => [(category, buildURL tp.2 tp.1 ctx)]
    | none => []
  else
    match found with
    | [tp] => [(category, buildURL tp.2 tp.1 ctx)]
    | _ => []

/-- `FilesDetector.Detect` from `src/detectors/files.go` (lines 118–152),
iterating the category rows in catalog order. -/
def Detect (fsv : FSView) (categories : List (Str × List (Str × FilePattern)))
    (ctx : KV) : KV :=
  match categories with
  | [] => []
  | (category, technologies) :: rest =>
    detectCategory fsv category technologies ctx ++ Detect fsv rest ctx

end FilesGo

/-! ## Generic technology detector, data-driven variant
(`src/unnamed/part_000`, `FilesDetector` over `TechnologyConfig`)

This variant carries the `hosting_match` substring in the catalog itself; its
`buildURL` is the URL-build algorithm of the specification. -/

namespace DataDriven

/-- `TechnologyConfig` from `src/unnamed/part_000`; absent YAML fields are
empty strings. -/
structure TechnologyConfig where
  displayName : Str
  category : Str
  hostingMatch : Str
  files : List Str
  urlTemplate : Str
  fallbackURL : Str
deriving DecidableEq

/-- `FilesDetector.buildURL` from `src/unnamed/part_000` (lines 54–79):
with a published repo and a template, a defined-but-uncontained `hosting_match`
forces the fallback URL (or the raw id); otherwise the `{repo}` placeholder is
substituted; without a repo or a template, the fallback URL or the raw id. -/
def buildURL (config : TechnologyConfig) (technology : Str) (contextResults : KV) : Str :=
  match List.lookup "repo".data contextResults with
  | some repoURL =>
    if !config.urlTemplate.isEmpty then
      if !config.hostingMatch.isEmpty && !containsB repoURL config.hostingMatch then
        if !config.fallbackURL.isEmpty then config.fallbackURL else technology
      else replaceAll config.urlTemplate "{repo}".data repoURL
    else if !config.fallbackURL.isEmpty then config.fallbackURL else technology
  | none => if !config.fallbackURL.isEmpty then config.fallbackURL else technology

end DataDriven


/-! ## Ground facts about the string primitives -/

theorem hasPrefixB_refl_append (p t : Str) : hasPrefixB p (p ++ t) = true := by
  induction p with
  | nil => rfl
  | cons c cs ih => simp [hasPrefixB, ih]

theorem hasPrefixB_eq_true_iff (p s : Str) :
    hasPrefixB p s = true ↔ ∃ t, s = p ++ t := by
  induction p generalizing s with
  | nil =>
    simp only [hasPrefixB, List.nil_append, true_iff]
    exact ⟨s, rfl⟩
  | cons c cs ih =>
    cases s with
    | nil =>
      simp [hasPrefixB]
    | cons a as =>
      simp only [hasPrefixB, Bool.and_eq_true, beq_iff_eq, ih, List.cons_append,
        List.cons.injEq]
      constructor
      · rintro ⟨rfl, t, rfl⟩
        exact ⟨t, rfl, rfl⟩
      · rintro ⟨t, rfl, rfl⟩
        exact ⟨rfl, t, rfl⟩

theorem hasSuffixB_refl_append (suf t : Str) : hasSuffixB suf (t ++ suf) = true := by
  simp only [hasSuffixB, Bool.and_eq_true, decide_eq_true_eq, beq_iff_eq]
  constructor
  · rw [List.length_append]
    omega
  · rw [List.length_append, Nat.add_sub_cancel, List.drop_left]

theorem hasSuffixB_eq_true_iff (suf s : Str) :
    hasSuffixB suf s = true ↔ ∃ t, s = t ++ suf := by
  constructor
  · intro h
    simp only [hasSuffixB, Bool.and_eq_true, decide_eq_true_eq, beq_iff_eq] at h
    refine ⟨s.take (s.length - suf.length), ?_⟩
    conv_lhs => rw [← List.take_append_drop (s.length - suf.length) s]
    rw [h.2]
  · rintro ⟨t, rfl⟩
    exact hasSuffixB_refl_append suf t

theorem trimSuffix_append (t suf : Str) : trimSuffix (t ++ suf) suf = t := by
  have h1 : (t ++ suf).length - suf.length = t.length := by
    simp [List.length_append]
  simp [trimSuffix, hasSuffixB_refl_append, h1, List.take_left]

theorem trimSuffix_of_no_tail (s suf : Str) (h : hasSuffixB suf s = false) :
    trimSuffix s suf = s := by
  simp [trimSuffix, h]

theorem breakColon_eval (a b : Str) (h : ∀ c ∈ a, ¬(c = ':')) :
    breakColon (a ++ ':' :: b) = some (a, b) := by
  induction a with
  | nil => simp [breakColon]
  | cons c cs ih =>
    have hc : (c == ':') = false := by
      simpa using h c (by simp)
    simp only [List.cons_append, breakColon, hc, Bool.false_eq_true, if_false,
      List.append_eq, ih fun x hx => h x (by simp [hx])]

theorem hasPrefixB_mono (p u w : Str) (h : hasPrefixB p u = true) :
    hasPrefixB p (u ++ w) = true := by
  rcases (hasPrefixB_eq_true_iff p u).1 h with ⟨t, rfl⟩
  rw [List.append_assoc]
  exact hasPrefixB_refl_append p (t ++ w)

theorem http_not_git (s : Str)
    (h : (hasPrefixB "http://".data s || hasPrefixB "https://".data s) = true) :
    hasPrefixB "git@".data s = false := by
  rcases Bool.or_eq_true_iff.1 h with h1 | h1 <;>
    · rcases (hasPrefixB_eq_true_iff _ _).1 h1 with ⟨t, rfl⟩
      rfl

theorem hasPrefixB_through_dot (p u v : Str) (h : hasPrefixB p (u ++ '.' :: v) = true)
    (hdot : '.' ∉ p) : hasPrefixB p u = true := by
  rcases (hasPrefixB_eq_true_iff _ _).1 h with ⟨t, ht⟩
  have hlen : p.length ≤ u.length := by
    by_contra hlt
    push_neg at hlt
    have h1 : (u ++ '.' :: v)[u.length]? = some '.' := by
      rw [List.getElem?_append_right (le_refl u.length)]
      simp
    rw [ht, List.getElem?_append] at h1
    rw [if_pos hlt] at h1
    rcases List.getElem?_eq_some.1 h1 with ⟨hn, hp⟩
    exact hdot (hp ▸ List.getElem_mem hn)
  have htake := congrArg (List.take p.length) ht
  rw [List.take_append_of_le_length hlen, List.take_left] at htake
  apply (hasPrefixB_eq_true_iff _ _).2
  refine ⟨u.drop p.length, ?_⟩
  conv_lhs => rw [← List.take_append_drop p.length u, htake]

/-! ## Evaluating the SSH remote patterns on their canonical shapes -/

theorem sshMatchGit_eval (host repoPath : Str) (hh : host ≠ [])
    (hc : ∀ c ∈ host, ¬(c = ':')) (hr : repoPath ≠ []) (hn : noNewline repoPath = true) :
    sshMatchGit ("git@".data ++ host ++ ':' :: (repoPath ++ ".git".data)) =
      some (host, repoPath) := by
  have hdrop : ("git@".data ++ (host ++ ':' :: (repoPath ++ ".git".data))).drop 4 =
      host ++ ':' :: (repoPath ++ ".git".data) := by
    rw [show (4 : Nat) = "git@".data.length from rfl, List.drop_left]
  have hlen : (repoPath ++ ".git".data).length - 4 = repoPath.length := by
    rw [List.length_append]
    rfl
  have htake : (repoPath ++ ".git".data).take ((repoPath ++ ".git".data).length - 4) =
      repoPath := by
    rw [hlen, ← show ".git".data.length + repoPath.length - ".git".data.length =
      repoPath.length by omega]
    rw [show ".git".data.length + repoPath.length - ".git".data.length =
      repoPath.length by omega, List.take_left]
  have h5 : 5 ≤ (repoPath ++ ".git".data).length := by
    rw [List.length_append]
    have : 1 ≤ repoPath.length := List.length_pos.2 hr
    simp only [show ".git".data.length = 4 from rfl]
    omega
  simp only [sshMatchGit, List.append_assoc, hasPrefixB_refl_append, if_true, hdrop,
    breakColon_eval host _ hc, hasSuffixB_refl_append, htake, hn,
    List.isEmpty_eq_false.2 hh, Bool.not_false, Bool.true_and, Bool.and_true,
    decide_eq_true (by exact h5)]

theorem sshMatchGit_no_tail (host rest : Str) (hc : ∀ c ∈ host, ¬(c = ':'))
    (hs : hasSuffixB ".git".data rest = false) :
    sshMatchGit ("git@".data ++ host ++ ':' :: rest) = none := by
  have hdrop : ("git@".data ++ (host ++ ':' :: rest)).drop 4 = host ++ ':' :: rest := by
    rw [show (4 : Nat) = "git@".data.length from rfl, List.drop_left]
  simp only [sshMatchGit, List.append_assoc, hasPrefixB_refl_append, if_true, hdrop,
    breakColon_eval host _ hc, hs, Bool.and_false, Bool.false_and, Bool.false_eq_true,
    if_false]

theorem sshMatchAny_eval (host rest : Str) (hh : host ≠ [])
    (hc : ∀ c ∈ host, ¬(c = ':')) (hr : rest ≠ []) (hn : noNewline rest = true) :
    sshMatchAny ("git@".data ++ host ++ ':' :: rest) = some (host, rest) := by
  have hdrop : ("git@".data ++ (host ++ ':' :: rest)).drop 4 = host ++ ':' :: rest := by
    rw [show (4 : Nat) = "git@".data.length from rfl, List.drop_left]
  simp only [sshMatchAny, List.append_assoc, hasPrefixB_refl_append, if_true, hdrop,
    breakColon_eval host _ hc, hn, List.isEmpty_eq_false.2 hh, List.isEmpty_eq_false.2 hr,
    Bool.not_false, Bool.true_and, Bool.and_true, if_true]

theorem sshMatchGit_of_no_git_head (s : Str) (h : hasPrefixB "git@".data s = false) :
    sshMatchGit s = none := by
  simp [sshMatchGit, h]

theorem sshMatchAny_of_no_git_head (s : Str) (h : hasPrefixB "git@".data s = false) :
    sshMatchAny s = none := by
  simp [sshMatchAny, h]

/-- An HTTP(S)-prefixed string whose tail is not `.git` is a fixed point of the
normalization. -/
theorem convert_of_http_no_git_tail (u : Str)
    (hp : (hasPrefixB "http://".data u || hasPrefixB "https://".data u) = true)
    (hs : hasSuffixB ".git".data u = false) : convertToHTTPSURL u = u := by
  have hg := http_not_git u hp
  rw [convertToHTTPSURL, sshMatchGit_of_no_git_head u hg, sshMatchAny_of_no_git_head u hg]
  simp only [hp, if_true]
  exact trimSuffix_of_no_tail u _ hs

/-- Stripping the `.git` tail of an HTTP(S) remote. -/
theorem convert_of_http_git_tail (u : Str)
    (hp : (hasPrefixB "http://".data u || hasPrefixB "https://".data u) = true) :
    convertToHTTPSURL (u ++ ".git".data) = u := by
  have hp2 : (hasPrefixB "http://".data (u ++ ".git".data) ||
      hasPrefixB "https://".data (u ++ ".git".data)) = true := by
    rcases Bool.or_eq_true_iff.1 hp with h1 | h1
    · exact Bool.or_eq_true_iff.2 (Or.inl (hasPrefixB_mono _ _ _ h1))
    · exact Bool.or_eq_true_iff.2 (Or.inr (hasPrefixB_mono _ _ _ h1))
  have hg := http_not_git _ hp2
  rw [convertToHTTPSURL, sshMatchGit_of_no_git_head _ hg, sshMatchAny_of_no_git_head _ hg]
  simp only [hp2, if_true]
  exact trimSuffix_append u _

/-! ## Claims C3 and C10: the remote-origin normalization -/

/-- C3, counterexample: the code only rewrites remotes whose user part is the
literal `git`; an SSH-style remote `alice@example.com:org/repo.git` is returned
unchanged instead of being rewritten to `https://example.com/org/repo`. -/
theorem convertToHTTPSURL_generic_user_counterexample :
    convertToHTTPSURL "alice@example.com:org/repo.git".data
        = "alice@example.com:org/repo.git".data ∧
      convertToHTTPSURL "alice@example.com:org/repo.git".data
        ≠ "https://example.com/org/repo".data := by
  exact ⟨by decide, by decide⟩

/-- C3 (amended): `convertToHTTPSURL` rewrites an SSH-style remote of the form
`git@host:path` — with user part literally `git` — with optional trailing
`.git`, to `https://host/path`; it strips one trailing `.git` suffix from an
`http://`/`https://` remote; and it returns every string that starts with
neither `git@` nor `http://` nor `https://` unchanged. -/
theorem convertToHTTPSURL_git_user_normalization :
    (∀ host repoPath : Str, host ≠ [] → (∀ c ∈ host, ¬(c = ':')) → repoPath ≠ [] →
      noNewline repoPath = true → hasSuffixB ".git".data repoPath = false →
      convertToHTTPSURL ("git@".data ++ host ++ ':' :: (repoPath ++ ".git".data)) =
          "https://".data ++ host ++ "/".data ++ repoPath ∧
        convertToHTTPSURL ("git@".data ++ host ++ ':' :: repoPath) =
          "https://".data ++ host ++ "/".data ++ repoPath) ∧
    (∀ u : Str, (hasPrefixB "http://".data u || hasPrefixB "https://".data u) = true →
      hasSuffixB ".git".data u = false →
      convertToHTTPSURL (u ++ ".git".data) = u ∧ convertToHTTPSURL u = u) ∧
    (∀ s : Str, hasPrefixB "git@".data s = false → hasPrefixB "http://".data s = false →
      hasPrefixB "https://".data s = false → convertToHTTPSURL s = s) := by
  refine ⟨?_, ?_, ?_⟩
  · intro host repoPath hh hc hr hn hs
    constructor
    · simp only [convertToHTTPSURL, sshMatchGit_eval host repoPath hh hc hr hn]
    · simp only [convertToHTTPSURL, sshMatchGit_no_tail host repoPath hc hs,
        sshMatchAny_eval host repoPath hh hc hr hn]
  · intro u hp hs
    exact ⟨convert_of_http_git_tail u hp, convert_of_http_no_git_tail u hp hs⟩
  · intro s h1 h2 h3
    have hb : (hasPrefixB "http://".data s || hasPrefixB "https://".data s) = false := by
      rw [h2, h3]
      rfl
    simp only [convertToHTTPSURL, sshMatchGit_of_no_git_head s h1,
      sshMatchAny_of_no_git_head s h1, hb, Bool.false_eq_true, if_false]

/-- C3, witness: the amended normalization at concrete remotes. -/
theorem convertToHTTPSURL_git_user_normalization_witness :
    (convertToHTTPSURL ("git@".data ++ "example.com".data ++ ':' ::
        ("org/repo".data ++ ".git".data)) =
        "https://".data ++ "example.com".data ++ "/".data ++ "org/repo".data ∧
      convertToHTTPSURL ("git@".data ++ "example.com".data ++ ':' :: "org/repo".data) =
        "https://".data ++ "example.com".data ++ "/".data ++ "org/repo".data) ∧
    (convertToHTTPSURL ("https://example.com/org/repo".data ++ ".git".data) =
        "https://example.com/org/repo".data ∧
      convertToHTTPSURL "https://example.com/org/repo".data =
        "https://example.com/org/repo".data) ∧
    convertToHTTPSURL "ftp://example.com/x".data = "ftp://example.com/x".data := by
  refine ⟨?_, ?_, ?_⟩
  · exact convertToHTTPSURL_git_user_normalization.1 "example.com".data "org/repo".data
      (by decide) (by decide) (by decide) (by decide) (by decide)
  · exact convertToHTTPSURL_git_user_normalization.2.1 "https://example.com/org/repo".data
      (by decide) (by decide)
  · exact convertToHTTPSURL_git_user_normalization.2.2 "ftp://example.com/x".data
      (by decide) (by decide) (by decide)

/-- C10, counterexample: the normalization is not idempotent — for
`https://x.git.git` the first pass leaves `https://x.git` and a second pass
strips again. -/
theorem convertToHTTPSURL_not_idempotent_counterexample :
    convertToHTTPSURL (convertToHTTPSURL "https://x.git.git".data) ≠
      convertToHTTPSURL "https://x.git.git".data := by decide

/-- C10 (amended): the normalization is idempotent on every input whose
normalized form does not end in `.git`; inputs normalizing to an HTTP(S) URL
that still ends in `.git` (such as `https://x.git.git`) are the only exception. -/
theorem convertToHTTPSURL_idempotent_no_git_tail :
    ∀ s : Str, hasSuffixB ".git".data (convertToHTTPSURL s) = false →
      convertToHTTPSURL (convertToHTTPSURL s) = convertToHTTPSURL s := by
  intro s h
  cases hg : sshMatchGit s with
  | some hr =>
    obtain ⟨host, repoPath⟩ := hr
    have ht : convertToHTTPSURL s = "https://".data ++ host ++ "/".data ++ repoPath := by
      simp only [convertToHTTPSURL, hg]
    rw [ht] at h ⊢
    refine convert_of_http_no_git_tail _ ?_ h
    exact Bool.or_eq_true_iff.2 (Or.inr (hasPrefixB_refl_append _ _))
  | none =>
    cases ha : sshMatchAny s with
    | some hr =>
      obtain ⟨host, repoPath⟩ := hr
      have ht : convertToHTTPSURL s = "https://".data ++ host ++ "/".data ++ repoPath := by
        simp only [convertToHTTPSURL, hg, ha]
      rw [ht] at h ⊢
      refine convert_of_http_no_git_tail _ ?_ h
      exact Bool.or_eq_true_iff.2 (Or.inr (hasPrefixB_refl_append _ _))
    | none =>
      cases hhttp : (hasPrefixB "http://".data s || hasPrefixB "https://".data s) with
      | true =>
        have ht : convertToHTTPSURL s = trimSuffix s ".git".data := by
          simp only [convertToHTTPSURL, hg, ha, hhttp, if_true]
        cases hsuf : hasSuffixB ".git".data s with
        | true =>
          rcases (hasSuffixB_eq_true_iff _ _).1 hsuf with ⟨u, rfl⟩
          have htu : trimSuffix (u ++ ".git".data) ".git".data = u := trimSuffix_append u _
          rw [ht, htu] at h ⊢
          refine convert_of_http_no_git_tail u ?_ h
          have hdot : (".git".data : Str) = '.' :: "git".data := rfl
          rcases Bool.or_eq_true_iff.1 hhttp with h1 | h1
          · rw [hdot] at h1
            exact Bool.or_eq_true_iff.2
              (Or.inl (hasPrefixB_through_dot _ _ _ h1 (by decide)))
          · rw [hdot] at h1
            exact Bool.or_eq_true_iff.2
              (Or.inr (hasPrefixB_through_dot _ _ _ h1 (by decide)))
        | false =>
          have hts : trimSuffix s ".git".data = s := trimSuffix_of_no_tail s _ hsuf
          rw [ht, hts]
          exact ht.trans hts
      | false =>
        have ht : convertToHTTPSURL s = s := by
          simp only [convertToHTTPSURL, hg, ha, hhttp, Bool.false_eq_true, if_false]
        rw [ht]
        exact ht

/-- C10, witness: idempotence at a concrete SSH remote. -/
theorem convertToHTTPSURL_idempotent_no_git_tail_witness :
    convertToHTTPSURL (convertToHTTPSURL "git@h.io:a/b".data) =
      convertToHTTPSURL "git@h.io:a/b".data :=
  convertToHTTPSURL_idempotent_no_git_tail "git@h.io:a/b".data (by decide)

/-! ## Claim C4: repository detector error policy -/

/-- C4, counterexample: inside a repository whose origin remote cannot be read
(`git remote get-url origin` fails, as it does when no origin is configured),
`GitRepositoryDetector.Detect` returns that error rather than an empty result. -/
theorem gitDetect_remote_error_counterexample :
    gitDetect ⟨true, Except.error ()⟩ = Except.error () := rfl

/-- C4 (amended): outside version control the detector yields an empty result
and no error; but a failing remote read (no origin configured) is returned as
the detector error — the absent `"repo"` key at scan level arises only because
the coordinator discards errored contributions; an empty remote output yields
an empty result without error. -/
theorem gitDetect_error_policy :
    (∀ env : GitEnv, env.isGitRepo = false → gitDetect env = Except.ok []) ∧
    (∀ (env : GitEnv) (e : Unit), env.isGitRepo = true →
      env.remoteOutput = Except.error e → gitDetect env = Except.error e) ∧
    (∀ (env : GitEnv) (out : Str), env.isGitRepo = true →
      env.remoteOutput = Except.ok out → trimSpace out = [] →
      gitDetect env = Except.ok []) := by
  refine ⟨?_, ?_, ?_⟩
  · intro env h
    simp [gitDetect, h]
  · intro env e h1 h2
    simp [gitDetect, getGitOriginURL, h1, h2]
  · intro env out h1 h2 h3
    simp [gitDetect, getGitOriginURL, h1, h2, h3]

/-- C4, witness: the three policy branches at concrete environments. -/
theorem gitDetect_error_policy_witness :
    gitDetect ⟨false, Except.ok []⟩ = Except.ok [] ∧
      gitDetect ⟨true, Except.error ()⟩ = Except.error () ∧
      gitDetect ⟨true, Except.ok "  ".data⟩ = Except.ok [] :=
  ⟨gitDetect_error_policy.1 ⟨false, Except.ok []⟩ rfl,
    gitDetect_error_policy.2.1 ⟨true, Except.error ()⟩ () rfl rfl,
    gitDetect_error_policy.2.2 ⟨true, Except.ok "  ".data⟩ "  ".data rfl rfl (by decide)⟩

/-! ## Claim C6: the data-driven URL-build algorithm -/

/-- C6: `buildURL` returns the fallback URL (or the raw id) when no repo is
published or no template is defined, likewise when `hosting_match` is defined
but not contained in the published repo URL, and otherwise substitutes the repo
URL for every `{repo}` placeholder of the template. -/
theorem buildURL_url_algorithm :
    (∀ (config : DataDriven.TechnologyConfig) (tech : Str) (ctx : KV),
      (List.lookup "repo".data ctx = none ∨ config.urlTemplate = []) →
      DataDriven.buildURL config tech ctx =
        if config.fallbackURL = [] then tech else config.fallbackURL) ∧
    (∀ (config : DataDriven.TechnologyConfig) (tech : Str) (ctx : KV) (repoURL : Str),
      List.lookup "repo".data ctx = some repoURL → config.urlTemplate ≠ [] →
      config.hostingMatch ≠ [] → containsB repoURL config.hostingMatch = false →
      DataDriven.buildURL config tech ctx =
        if config.fallbackURL = [] then tech else config.fallbackURL) ∧
    (∀ (config : DataDriven.TechnologyConfig) (tech : Str) (ctx : KV) (repoURL : Str),
      List.lookup "repo".data ctx = some repoURL → config.urlTemplate ≠ [] →
      (config.hostingMatch = [] ∨ containsB repoURL config.hostingMatch = true) →
      DataDriven.buildURL config tech ctx =
        replaceAll config.urlTemplate "{repo}".data repoURL) := by
  refine ⟨?_, ?_, ?_⟩
  · intro config tech ctx h
    rcases h with h | h
    · rw [DataDriven.buildURL, h]
      by_cases hf : config.fallbackURL = [] <;> simp [hf]
    · cases hl : List.lookup "repo".data ctx with
      | none =>
        rw [DataDriven.buildURL, hl]
        by_cases hf : config.fallbackURL = [] <;> simp [hf]
      | some repoURL =>
        rw [DataDriven.buildURL, hl]
        by_cases hf : config.fallbackURL = [] <;> simp [hf, h]
  · intro config tech ctx repoURL hl h2 h3 h4
    rw [DataDriven.buildURL, hl]
    simp only [List.isEmpty_eq_false.2 h2, List.isEmpty_eq_false.2 h3, h4,
      Bool.not_false, Bool.true_and, if_true]
    by_cases hf : config.fallbackURL = [] <;> simp [hf]
  · intro config tech ctx repoURL hl h2 h3
    rw [DataDriven.buildURL, hl]
    rcases h3 with h3 | h3
    · simp [List.isEmpty_eq_false.2 h2, h3]
    · simp [List.isEmpty_eq_false.2 h2, h3]

/-- C6, witness: each branch of the URL-build algorithm at concrete data. -/
theorem buildURL_url_algorithm_witness :
    DataDriven.buildURL
        ⟨"GitLab CI".data, "ci".data, "gitlab.com".data, [],
          "{repo}/-/pipelines".data, "fb".data⟩ "gitlab".data [] = "fb".data ∧
      DataDriven.buildURL
        ⟨"GitLab CI".data, "ci".data, "gitlab.com".data, [],
          "{repo}/-/pipelines".data, "fb".data⟩ "gitlab".data
        [("repo".data, "https://github.com/o/r".data)] = "fb".data ∧
      DataDriven.buildURL
        ⟨"GitLab CI".data, "ci".data, "gitlab.com".data, [],
          "{repo}/-/pipelines".data, "fb".data⟩ "gitlab".data
        [("repo".data, "https://gitlab.com/o/r".data)] =
        "https://gitlab.com/o/r/-/pipelines".data := by
  refine ⟨?_, ?_, ?_⟩
  · exact (buildURL_url_algorithm.1 _ "gitlab".data [] (Or.inl rfl)).trans (by decide)
  · exact (buildURL_url_algorithm.2.1 _ "gitlab".data
      [("repo".data, "https://github.com/o/r".data)] "https://github.com/o/r".data
      (by decide) (by decide) (by decide) (by decide)).trans (by decide)
  · exact (buildURL_url_algorithm.2.2 _ "gitlab".data
      [("repo".data, "https://gitlab.com/o/r".data)] "https://gitlab.com/o/r".data
      (by decide) (by decide) (Or.inr (by decide))).trans (by decide)

/-! ## Claim C7: unreadable manifests are skipped, not fatal -/

/-- C7: a manifest whose read fails yields zero findings (the Go function has no
error channel at all), and the per-language scanning loop behaves as if the
unreadable files were not there — the remaining manifests are still analyzed. -/
theorem analyzeFile_unreadable_skip :
    (∀ (filePath language : Str) (servicesData : List (Str × ServiceData)),
      analyzeFile none filePath language servicesData = []) ∧
    (∀ (fs : FS) (language : Str) (servicesData : List (Str × ServiceData))
      (files : List Str) (m : List (Str × ServiceDetection)),
      servicesMapLoop fs language servicesData files m =
        servicesMapLoop fs language servicesData
          (files.filter fun f => (fs.read f).isSome) m) := by
  refine ⟨fun _ _ _ => rfl, ?_⟩
  intro fs language servicesData files
  induction files with
  | nil => intro m; rfl
  | cons f rest ih =>
    intro m
    cases hr : fs.read f with
    | none =>
      simp only [servicesMapLoop, hr, List.filter_cons, Option.isSome_none,
        Bool.false_eq_true, if_false]
      exact ih m
    | some content =>
      simp only [servicesMapLoop, hr, List.filter_cons, Option.isSome_some, if_true]
      exact ih _

/-! ## Claim C9: the context is read-only during phase 2 -/

/-- C9: phase 2 never changes the published context map, so after the scan the
context holds exactly the merged phase-1 results. -/
theorem context_readonly_phase2 :
    (∀ (dets : List Det) (s : ScanState), (runPhase2 dets s).ctxResults = s.ctxResults) ∧
    (∀ phase1 phase2 : List Det,
      (handleSniff phase1 phase2).ctxResults = (runPhase1 phase1 ⟨[], []⟩).ctxResults) := by
  have h1 : ∀ (dets : List Det) (s : ScanState),
      (runPhase2 dets s).ctxResults = s.ctxResults := by
    intro dets
    induction dets with
    | nil => intro s; rfl
    | cons d rest ih =>
      intro s
      cases hd : d s.ctxResults with
      | error e =>
        simp only [runPhase2, hd]
        exact ih s
      | ok results =>
        simp only [runPhase2, hd]
        exact ih _
  exact ⟨h1, fun p1 p2 => h1 p2 _⟩

/-! ## Claim C8: one failing detector never aborts the scan -/

theorem runPhase1_append (l1 l2 : List Det) (s : ScanState) :
    runPhase1 (l1 ++ l2) s = runPhase1 l2 (runPhase1 l1 s) := by
  induction l1 generalizing s with
  | nil => rfl
  | cons d rest ih =>
    cases hd : d s.ctxResults with
    | error e =>
      simp only [List.cons_append, runPhase1, hd]
      exact ih _
    | ok res =>
      simp only [List.cons_append, runPhase1, hd]
      exact ih _

theorem runPhase2_append (l1 l2 : List Det) (s : ScanState) :
    runPhase2 (l1 ++ l2) s = runPhase2 l2 (runPhase2 l1 s) := by
  induction l1 generalizing s with
  | nil => rfl
  | cons d rest ih =>
    cases hd : d s.ctxResults with
    | error e =>
      simp only [List.cons_append, runPhase2, hd]
      exact ih _
    | ok res =>
      simp only [List.cons_append, runPhase2, hd]
      exact ih _

/-- C8: an erroring detector leaves the state untouched while the loop
continues; a successful phase-1 result is merged into both the context and the
final map (phase-2 results into the final map only); and removing an erroring
detector from either phase leaves the whole scan outcome unchanged. -/
theorem pipeline_error_isolation :
    (∀ (d : Det) (rest : List Det) (s : ScanState) (e : Unit),
      d s.ctxResults = Except.error e → runPhase1 (d :: rest) s = runPhase1 rest s) ∧
    (∀ (d : Det) (rest : List Det) (s : ScanState) (e : Unit),
      d s.ctxResults = Except.error e → runPhase2 (d :: rest) s = runPhase2 rest s) ∧
    (∀ (d : Det) (rest : List Det) (s : ScanState) (res : KV),
      d s.ctxResults = Except.ok res →
      runPhase1 (d :: rest) s =
        runPhase1 rest ⟨mergeInto s.allResults res, mergeInto s.ctxResults res⟩) ∧
    (∀ (d : Det) (rest : List Det) (s : ScanState) (res : KV),
      d s.ctxResults = Except.ok res →
      runPhase2 (d :: rest) s = runPhase2 rest ⟨mergeInto s.allResults res, s.ctxResults⟩) ∧
    (∀ (e : Unit) (pre post phase2 : List Det),
      handleSniff (pre ++ (fun _ => Except.error e) :: post) phase2 =
        handleSniff (pre ++ post) phase2) ∧
    (∀ (e : Unit) (phase1 pre post : List Det),
      handleSniff phase1 (pre ++ (fun _ => Except.error e) :: post) =
        handleSniff phase1 (pre ++ post)) := by
  refine ⟨?_, ?_, ?_, ?_, ?_, ?_⟩
  · intro d rest s e hd
    simp only [runPhase1, hd]
  · intro d rest s e hd
    simp only [runPhase2, hd]
  · intro d rest s res hd
    simp only [runPhase1, hd]
  · intro d rest s res hd
    simp only [runPhase2, hd]
  · intro e pre post phase2
    simp only [handleSniff, runPhase1_append]
    rfl
  · intro e phase1 pre post
    simp only [handleSniff, runPhase2_append]
    rfl

/-- C8, witness: the step behaviors at concrete detectors and states. -/
theorem pipeline_error_isolation_witness :
    runPhase1 [fun _ => Except.error ()] ⟨[], []⟩ = runPhase1 [] ⟨[], []⟩ ∧
      runPhase2 [fun _ => Except.error ()] ⟨[], []⟩ = runPhase2 [] ⟨[], []⟩ ∧
      runPhase1 [fun _ => Except.ok [("repo".data, "u".data)]] ⟨[], []⟩ =
        runPhase1 [] ⟨mergeInto [] [("repo".data, "u".data)],
          mergeInto [] [("repo".data, "u".data)]⟩ ∧
      runPhase2 [fun _ => Except.ok [("ci".data, "u".data)]] ⟨[], []⟩ =
        runPhase2 [] ⟨mergeInto [] [("ci".data, "u".data)], []⟩ :=
  ⟨pipeline_error_isolation.1 _ [] ⟨[], []⟩ () rfl,
    pipeline_error_isolation.2.1 _ [] ⟨[], []⟩ () rfl,
    pipeline_error_isolation.2.2.1 _ [] ⟨[], []⟩ [("repo".data, "u".data)] rfl,
    pipeline_error_isolation.2.2.2.1 _ [] ⟨[], []⟩ [("ci".data, "u".data)] rfl⟩

/-! ## Claim C5: service merging is per-language -/

theorem insertService_name_eq_key (m : List (Str × ServiceDetection))
    (svc : ServiceDetection) (h : ∀ kv ∈ m, (kv.2).name = kv.1) :
    ∀ kv ∈ insertService m svc, (kv.2).name = kv.1 := by
  induction m with
  | nil =>
    intro kv hkv
    simp only [insertService, List.mem_singleton] at hkv
    subst hkv
    rfl
  | cons hd rest ih =>
    obtain ⟨k, existing⟩ := hd
    intro kv hkv
    rw [insertService] at hkv
    by_cases hk : (k == svc.name) = true
    · rw [if_pos hk] at hkv
      rcases List.mem_cons.1 hkv with heq | hmem
      · subst heq
        exact h (k, existing) (List.mem_cons_self _ _)
      · exact h kv (List.mem_cons_of_mem _ hmem)
    · rw [if_neg hk] at hkv
      rcases List.mem_cons.1 hkv with heq | hmem
      · subst heq
        exact h (k, existing) (List.mem_cons_self _ _)
      · exact ih (fun kv hkv => h kv (List.mem_cons_of_mem _ hkv)) kv hmem

theorem insertService_keys (m : List (Str × ServiceDetection)) (svc : ServiceDetection) :
    (insertService m svc).map Prod.fst =
      if svc.name ∈ m.map Prod.fst then m.map Prod.fst
      else m.map Prod.fst ++ [svc.name] := by
  induction m with
  | nil => simp [insertService]
  | cons hd rest ih =>
    obtain ⟨k, existing⟩ := hd
    rw [insertService]
    by_cases hk : (k == svc.name) = true
    · have hkeq : k = svc.name := by simpa using hk
      subst hkeq
      rw [if_pos hk]
      simp only [List.map_cons]
      rw [if_pos (List.mem_cons_self _ _)]
    · have hkne : ¬(svc.name = k) := by
        intro h
        exact hk (by simp [h])
      rw [if_neg hk]
      simp only [List.map_cons, List.mem_cons]
      rw [ih]
      by_cases hmem : svc.name ∈ rest.map Prod.fst
      · simp [hmem, hkne]
      · simp [hmem, hkne]

theorem insertService_keys_nodup (m : List (Str × ServiceDetection))
    (svc : ServiceDetection) (h : (m.map Prod.fst).Nodup) :
    ((insertService m svc).map Prod.fst).Nodup := by
  rw [insertService_keys]
  by_cases hmem : svc.name ∈ m.map Prod.fst
  · simpa [hmem] using h
  · simp [hmem, List.nodup_append, h, List.disjoint_singleton]

theorem insertServices_invariant (l : List ServiceDetection) :
    ∀ m : List (Str × ServiceDetection),
      (∀ kv ∈ m, (kv.2).name = kv.1) ∧ (m.map Prod.fst).Nodup →
      (∀ kv ∈ insertServices m l, (kv.2).name = kv.1) ∧
        ((insertServices m l).map Prod.fst).Nodup := by
  induction l with
  | nil => intro m h; exact h
  | cons svc rest ih =>
    intro m h
    rw [show insertServices m (svc :: rest) = insertServices (insertService m svc) rest
      from rfl]
    exact ih _ ⟨insertService_name_eq_key m svc h.1, insertService_keys_nodup m svc h.2⟩

theorem servicesMapLoop_invariant (fs : FS) (language : Str)
    (servicesData : List (Str × ServiceData)) (files : List Str) :
    ∀ m : List (Str × ServiceDetection),
      (∀ kv ∈ m, (kv.2).name = kv.1) ∧ (m.map Prod.fst).Nodup →
      (∀ kv ∈ servicesMapLoop fs language servicesData files m, (kv.2).name = kv.1) ∧
        ((servicesMapLoop fs language servicesData files m).map Prod.fst).Nodup := by
  induction files with
  | nil => intro m h; exact h
  | cons f rest ih =>
    intro m h
    rw [servicesMapLoop]
    exact ih _ (insertServices_invariant _ m h)

theorem upsertPkg_mem (m : List PackageInfo) (p q : PackageInfo)
    (h : q ∈ upsertPkg m p) : q ∈ m ∨ q = p := by
  induction m with
  | nil =>
    simp only [upsertPkg, List.mem_singleton] at h
    exact Or.inr h
  | cons a rest ih =>
    rw [upsertPkg] at h
    by_cases ha : (a.name == p.name) = true
    · rw [if_pos ha] at h
      rcases List.mem_cons.1 h with h1 | h1
      · exact Or.inr h1
      · exact Or.inl (List.mem_cons_of_mem _ h1)
    · rw [if_neg ha] at h
      rcases List.mem_cons.1 h with h1 | h1
      · exact Or.inl (h1 ▸ List.mem_cons_self a rest)
      · rcases ih h1 with h2 | h2
        · exact Or.inl (List.mem_cons_of_mem _ h2)
        · exact Or.inr h2

theorem foldl_upsertPkg_mem (l : List PackageInfo) :
    ∀ (m : List PackageInfo) (q : PackageInfo),
      q ∈ l.foldl upsertPkg m → q ∈ m ∨ q ∈ l := by
  induction l with
  | nil =>
    intro m q h
    exact Or.inl h
  | cons p rest ih =>
    intro m q h
    rw [List.foldl_cons] at h
    rcases ih _ q h with h1 | h1
    · rcases upsertPkg_mem m p q h1 with h2 | h2
      · exact Or.inl h2
      · exact Or.inr (h2 ▸ List.mem_cons_self p rest)
    · exact Or.inr (List.mem_cons_of_mem _ h1)

theorem mergePackages_mem (a b : List PackageInfo) (q : PackageInfo)
    (h : q ∈ mergePackages a b) : q ∈ a ∨ q ∈ b := by
  rw [mergePackages] at h
  rcases foldl_upsertPkg_mem _ _ _ h with h1 | h1
  · cases h1
  · exact List.mem_append.1 h1

theorem upsertPkg_name_mem (m : List PackageInfo) (p : PackageInfo) (n : Str)
    (h : ∃ q ∈ m, q.name = n) : ∃ q ∈ upsertPkg m p, q.name = n := by
  induction m with
  | nil =>
    obtain ⟨q, hq, _⟩ := h
    cases hq
  | cons a rest ih =>
    rw [upsertPkg]
    obtain ⟨q, hq, hqn⟩ := h
    by_cases ha : (a.name == p.name) = true
    · rw [if_pos ha]
      rcases List.mem_cons.1 hq with h1 | h1
      · have hap : a.name = p.name := by simpa using ha
        exact ⟨p, List.mem_cons_self _ _, by rw [← hap, ← h1]; exact hqn⟩
      · exact ⟨q, List.mem_cons_of_mem _ h1, hqn⟩
    · rw [if_neg ha]
      rcases List.mem_cons.1 hq with h1 | h1
      · exact ⟨a, List.mem_cons_self _ _, h1 ▸ hqn⟩
      · obtain ⟨q2, hq2, hq2n⟩ := ih ⟨q, h1, hqn⟩
        exact ⟨q2, List.mem_cons_of_mem _ hq2, hq2n⟩

theorem upsertPkg_name_self (m : List PackageInfo) (p : PackageInfo) :
    ∃ q ∈ upsertPkg m p, q.name = p.name := by
  induction m with
  | nil => exact ⟨p, List.mem_singleton.2 rfl, rfl⟩
  | cons a rest ih =>
    rw [upsertPkg]
    by_cases ha : (a.name == p.name) = true
    · rw [if_pos ha]
      exact ⟨p, List.mem_cons_self _ _, rfl⟩
    · rw [if_neg ha]
      obtain ⟨q, hq, hqn⟩ := ih
      exact ⟨q, List.mem_cons_of_mem _ hq, hqn⟩

theorem foldl_upsertPkg_name_mem (l : List PackageInfo) :
    ∀ (m : List PackageInfo) (n : Str), (∃ q ∈ m, q.name = n) →
      ∃ q ∈ l.foldl upsertPkg m, q.name = n := by
  induction l with
  | nil =>
    intro m n h
    exact h
  | cons p rest ih =>
    intro m n h
    rw [List.foldl_cons]
    exact ih _ n (upsertPkg_name_mem m p n h)

theorem foldl_upsertPkg_name_of_mem (l : List PackageInfo) :
    ∀ (m : List PackageInfo) (p : PackageInfo), p ∈ l →
      ∃ q ∈ l.foldl upsertPkg m, q.name = p.name := by
  induction l with
  | nil =>
    intro m p h
    cases h
  | cons a rest ih =>
    intro m p h
    rw [List.foldl_cons]
    rcases List.mem_cons.1 h with h1 | h1
    · subst h1
      exact foldl_upsertPkg_name_mem rest _ _ (upsertPkg_name_self m p)
    · exact ih _ p h1

theorem mergePackages_name_left (a b : List PackageInfo) (p : PackageInfo)
    (h : p ∈ a) : ∃ q ∈ mergePackages a b, q.name = p.name := by
  rw [mergePackages]
  exact foldl_upsertPkg_name_of_mem _ _ _ (List.mem_append_left _ h)

theorem mergePackages_name_right (a b : List PackageInfo) (p : PackageInfo)
    (h : p ∈ b) : ∃ q ∈ mergePackages a b, q.name = p.name := by
  rw [mergePackages]
  exact foldl_upsertPkg_name_of_mem _ _ _ (List.mem_append_right _ h)

theorem insertService_entry_tracking (m : List (Str × ServiceDetection))
    (svc : ServiceDetection) (kv : Str × ServiceDetection) (h : kv ∈ m) :
    ∃ kv2 ∈ insertService m svc, (kv2.2).name = (kv.2).name ∧
      ∀ pi ∈ (kv.2).packages, ∃ q ∈ (kv2.2).packages, q.name = pi.name := by
  induction m with
  | nil => cases h
  | cons hd rest ih =>
    obtain ⟨k, existing⟩ := hd
    rw [insertService]
    by_cases hk : (k == svc.name) = true
    · rw [if_pos hk]
      rcases List.mem_cons.1 h with h1 | h1
      · subst h1
        refine ⟨(k, { existing with
          packages := mergePackages existing.packages svc.packages }),
          List.mem_cons_self _ _, rfl, ?_⟩
        intro pi hpi
        exact mergePackages_name_left _ _ pi hpi
      · exact ⟨kv, List.mem_cons_of_mem _ h1, rfl, fun pi hpi => ⟨pi, hpi, rfl⟩⟩
    · rw [if_neg hk]
      rcases List.mem_cons.1 h with h1 | h1
      · subst h1
        exact ⟨(k, existing), List.mem_cons_self _ _, rfl, fun pi hpi => ⟨pi, hpi, rfl⟩⟩
      · obtain ⟨kv2, hkv2, hn, hp⟩ := ih h1
        exact ⟨kv2, List.mem_cons_of_mem _ hkv2, hn, hp⟩

theorem insertService_self_entry (m : List (Str × ServiceDetection))
    (svc : ServiceDetection) (hinv : ∀ kv ∈ m, (kv.2).name = kv.1) :
    ∃ kv2 ∈ insertService m svc, (kv2.2).name = svc.name ∧
      ∀ pi ∈ svc.packages, ∃ q ∈ (kv2.2).packages, q.name = pi.name := by
  induction m with
  | nil =>
    exact ⟨(svc.name, svc), List.mem_singleton.2 rfl, rfl, fun pi hpi => ⟨pi, hpi, rfl⟩⟩
  | cons hd rest ih =>
    obtain ⟨k, existing⟩ := hd
    rw [insertService]
    by_cases hk : (k == svc.name) = true
    · rw [if_pos hk]
      have hkeq : k = svc.name := by simpa using hk
      have hname : existing.name = k := hinv (k, existing) (List.mem_cons_self _ _)
      refine ⟨(k, { existing with
        packages := mergePackages existing.packages svc.packages }),
        List.mem_cons_self _ _, ?_, ?_⟩
      · rw [show ({ existing with
          packages := mergePackages existing.packages svc.packages } :
            ServiceDetection).name = existing.name from rfl, hname, hkeq]
      · intro pi hpi
        exact mergePackages_name_right _ _ pi hpi
    · rw [if_neg hk]
      obtain ⟨kv2, hkv2, hn, hp⟩ := ih fun kv h2 => hinv kv (List.mem_cons_of_mem _ h2)
      exact ⟨kv2, List.mem_cons_of_mem _ hkv2, hn, hp⟩

theorem insertService_sound (m : List (Str × ServiceDetection))
    (svc : ServiceDetection) (hinv : ∀ kv ∈ m, (kv.2).name = kv.1)
    (kv : Str × ServiceDetection) (h : kv ∈ insertService m svc) :
    ∀ pi ∈ (kv.2).packages,
      (∃ kv0 ∈ m, (kv0.2).name = (kv.2).name ∧ pi ∈ (kv0.2).packages) ∨
        ((kv.2).name = svc.name ∧ pi ∈ svc.packages) := by
  induction m with
  | nil =>
    simp only [insertService, List.mem_singleton] at h
    subst h
    intro pi hpi
    exact Or.inr ⟨rfl, hpi⟩
  | cons hd rest ih =>
    obtain ⟨k, existing⟩ := hd
    rw [insertService] at h
    by_cases hk : (k == svc.name) = true
    · rw [if_pos hk] at h
      have hkeq : k = svc.name := by simpa using hk
      have hname : existing.name = k := hinv (k, existing) (List.mem_cons_self _ _)
      intro pi hpi
      rcases List.mem_cons.1 h with h1 | h1
      · subst h1
        rcases mergePackages_mem _ _ pi hpi with h2 | h2
        · exact Or.inl ⟨(k, existing), List.mem_cons_self _ _, rfl, h2⟩
        · refine Or.inr ⟨?_, h2⟩
          rw [show ({ existing with
            packages := mergePackages existing.packages svc.packages } :
              ServiceDetection).name = existing.name from rfl, hname, hkeq]
      · exact Or.inl ⟨kv, List.mem_cons_of_mem _ h1, rfl, hpi⟩
    · rw [if_neg hk] at h
      intro pi hpi
      rcases List.mem_cons.1 h with h1 | h1
      · subst h1
        exact Or.inl ⟨(k, existing), List.mem_cons_self _ _, rfl, hpi⟩
      · rcases ih (fun kv h2 => hinv kv (List.mem_cons_of_mem _ h2)) h1 pi hpi with h2 | h2
        · obtain ⟨kv0, hkv0, hn, hp⟩ := h2
          exact Or.inl ⟨kv0, List.mem_cons_of_mem _ hkv0, hn, hp⟩
        · exact Or.inr h2

theorem insertService_from (m : List (Str × ServiceDetection)) (svc : ServiceDetection)
    (D : List ServiceDetection) (hinv : ∀ kv ∈ m, (kv.2).name = kv.1)
    (hf : PackagesFrom m D) : PackagesFrom (insertService m svc) (D ++ [svc]) := by
  intro kv hkv pi hpi
  rcases insertService_sound m svc hinv kv hkv pi hpi with ⟨kv0, h0, hn, hp⟩ | ⟨hn, hp⟩
  · obtain ⟨d, hd, hdn, hdp⟩ := hf kv0 h0 pi hp
    exact ⟨d, List.mem_append_left _ hd, hdn.trans hn, hdp⟩
  · exact ⟨svc, List.mem_append_right _ (List.mem_singleton.2 rfl), hn.symm, hp⟩

theorem insertService_kept (m : List (Str × ServiceDetection)) (svc : ServiceDetection)
    (D : List ServiceDetection) (hinv : ∀ kv ∈ m, (kv.2).name = kv.1)
    (hk : PackagesKept m D) : PackagesKept (insertService m svc) (D ++ [svc]) := by
  intro d hd pi hpi
  rcases List.mem_append.1 hd with h1 | h1
  · obtain ⟨kv, hkv, hn, q, hq, hqn⟩ := hk d h1 pi hpi
    obtain ⟨kv2, hkv2, hn2, hp2⟩ := insertService_entry_tracking m svc kv hkv
    obtain ⟨q2, hq2, hq2n⟩ := hp2 q hq
    exact ⟨kv2, hkv2, hn2.trans hn, q2, hq2, hq2n.trans hqn⟩
  · rw [List.mem_singleton] at h1
    subst h1
    obtain ⟨kv2, hkv2, hn2, hp2⟩ := insertService_self_entry m d hinv
    obtain ⟨q2, hq2, hq2n⟩ := hp2 pi hpi
    exact ⟨kv2, hkv2, hn2, q2, hq2, hq2n⟩

theorem insertServices_name_eq_key (l : List ServiceDetection) :
    ∀ m : List (Str × ServiceDetection), (∀ kv ∈ m, (kv.2).name = kv.1) →
      ∀ kv ∈ insertServices m l, (kv.2).name = kv.1 := by
  induction l with
  | nil =>
    intro m h
    exact h
  | cons svc rest ih =>
    intro m h
    rw [show insertServices m (svc :: rest) = insertServices (insertService m svc) rest
      from rfl]
    exact ih _ (insertService_name_eq_key m svc h)

theorem insertServices_tracking (l : List ServiceDetection) :
    ∀ (m : List (Str × ServiceDetection)) (D : List ServiceDetection),
      (∀ kv ∈ m, (kv.2).name = kv.1) → PackagesFrom m D → PackagesKept m D →
      PackagesFrom (insertServices m l) (D ++ l) ∧
        PackagesKept (insertServices m l) (D ++ l) := by
  induction l with
  | nil =>
    intro m D _ hf hk
    rw [List.append_nil]
    exact ⟨hf, hk⟩
  | cons svc rest ih =>
    intro m D hinv hf hk
    rw [show insertServices m (svc :: rest) = insertServices (insertService m svc) rest
      from rfl]
    have hres := ih (insertService m svc) (D ++ [svc])
      (insertService_name_eq_key m svc hinv)
      (insertService_from m svc D hinv hf) (insertService_kept m svc D hinv hk)
    rw [show (D ++ [svc]) ++ rest = D ++ svc :: rest by simp] at hres
    exact hres

theorem servicesMapLoop_tracking (fs : FS) (language : Str)
    (servicesData : List (Str × ServiceData)) :
    ∀ (files : List Str) (m : List (Str × ServiceDetection)) (D : List ServiceDetection),
      (∀ kv ∈ m, (kv.2).name = kv.1) → PackagesFrom m D → PackagesKept m D →
      PackagesFrom (servicesMapLoop fs language servicesData files m)
          (D ++ (files.map fun f =>
            analyzeFile (fs.read f) f language servicesData).flatten) ∧
        PackagesKept (servicesMapLoop fs language servicesData files m)
          (D ++ (files.map fun f =>
            analyzeFile (fs.read f) f language servicesData).flatten) := by
  intro files
  induction files with
  | nil =>
    intro m D _ hf hk
    simp only [servicesMapLoop, List.map_nil, List.flatten_nil, List.append_nil]
    exact ⟨hf, hk⟩
  | cons f rest ih =>
    intro m D hinv hf hk
    rw [servicesMapLoop]
    have htr := insertServices_tracking
      (analyzeFile (fs.read f) f language servicesData) m D hinv hf hk
    have hres := ih (insertServices m (analyzeFile (fs.read f) f language servicesData))
      (D ++ analyzeFile (fs.read f) f language servicesData)
      (insertServices_name_eq_key _ m hinv) htr.1 htr.2
    simp only [List.map_cons, List.flatten_cons, ← List.append_assoc]
    exact hres

/-- C5, counterexample: with the same service confirmed through a Ruby manifest
and a Node.js manifest, the resolver emits two `ServiceDetection`s with the same
service id, one per language — cross-language findings are not merged. -/
theorem analyzeProjectDependencies_cross_language_counterexample :
    ((analyzeProjectDependencies
      ⟨fun pat => if pat == "Gemfile".data then ["Gemfile".data]
          else if pat == "package.json".data then ["package.json".data] else [],
       fun path => if path == "Gemfile".data then some "gem stripe".data
          else if path == "package.json".data then some "stripe: 1".data else none⟩
      ["ruby".data, "nodejs".data]
      ⟨[("ruby".data, ⟨[("bundler".data, ⟨["Gemfile".data]⟩)]⟩),
        ("nodejs".data, ⟨[("npm".data, ⟨["package.json".data]⟩)]⟩)]⟩
      [("stripe".data, ⟨"Stripe".data, "u".data,
          [("ruby".data, ["stripe".data]), ("nodejs".data, ["stripe".data])]⟩)]).flatMap
      fun r => r.services.map ServiceDetection.name) =
      ["stripe".data, "stripe".data] := by decide

/-- C5 (amended): merging is per language. Within each emitted per-language
result the service ids are pairwise distinct, and each detection's
`matched_packages` is the union (by package name) of the packages confirmed in
every contributing manifest of that language: every stored package comes
verbatim from some analyzed manifest's detection of that service, and every
package confirmed by any analyzed manifest of the language is retained by name
in that service's single detection. But a service confirmed in several
languages yields one detection per language, so the full result list can
repeat a service id. -/
theorem analyzeProjectDependencies_per_language_merge :
    ∀ (fs : FS) (languages : List Str) (stackData : StackDependencyFiles)
      (servicesData : List (Str × ServiceData)) (r : DetectionResult),
      r ∈ analyzeProjectDependencies fs languages stackData servicesData →
      (r.services.map ServiceDetection.name).Nodup ∧
      (∀ d ∈ r.services, ∀ pi ∈ d.packages,
        ∃ f ∈ collectFoundFiles fs
            ((List.lookup r.language stackData.languages).getD ⟨[]⟩),
          ∃ d2 ∈ analyzeFile (fs.read f) f r.language servicesData,
            d2.name = d.name ∧ pi ∈ d2.packages) ∧
      (∀ f ∈ collectFoundFiles fs
          ((List.lookup r.language stackData.languages).getD ⟨[]⟩),
        ∀ d2 ∈ analyzeFile (fs.read f) f r.language servicesData,
          ∀ pi2 ∈ d2.packages,
            ∃ d ∈ r.services, d.name = d2.name ∧
              ∃ pi ∈ d.packages, pi.name = pi2.name) := by
  intro fs languages stackData servicesData
  induction languages with
  | nil => intro r h; cases h
  | cons language rest ih =>
    intro r h
    rw [analyzeProjectDependencies] at h
    rcases List.mem_append.1 h with h1 | h1
    · rw [analyzeLanguage] at h1
      set sMap := servicesMapLoop fs language servicesData
        (collectFoundFiles fs ((List.lookup language stackData.languages).getD ⟨[]⟩)) []
        with hsMap
      have hinv := servicesMapLoop_invariant fs language servicesData
        (collectFoundFiles fs ((List.lookup language stackData.languages).getD ⟨[]⟩)) []
        ⟨by simp, by simp⟩
      rw [← hsMap] at hinv
      have htrack := servicesMapLoop_tracking fs language servicesData
        (collectFoundFiles fs ((List.lookup language stackData.languages).getD ⟨[]⟩)) [] []
        (by simp) (fun kv hkv => nomatch hkv) (fun d hd => nomatch hd)
      rw [← hsMap] at htrack
      simp only [List.nil_append] at htrack
      split at h1
      · cases h1
      · rw [List.mem_singleton] at h1
        subst h1
        refine ⟨?_, ?_, ?_⟩
        · have hmapeq : (sMap.map (·.2)).map ServiceDetection.name =
              sMap.map Prod.fst := by
            rw [List.map_map]
            exact List.map_congr_left fun kv hkv => hinv.1 kv hkv
          simpa [hmapeq] using hinv.2
        · intro d hd pi hpi
          obtain ⟨kv, hkv, hkv2⟩ := List.mem_map.1 hd
          subst hkv2
          obtain ⟨det, hdet, hdetn, hdetp⟩ := htrack.1 kv hkv pi hpi
          obtain ⟨lf, hlf, hdet2⟩ := List.mem_flatten.1 hdet
          obtain ⟨f, hf, hlf2⟩ := List.mem_map.1 hlf
          subst hlf2
          exact ⟨f, hf, det, hdet2, hdetn, hdetp⟩
        · intro f hf d2 hd2 pi2 hpi2
          have hdet : d2 ∈ ((collectFoundFiles fs
              ((List.lookup language stackData.languages).getD ⟨[]⟩)).map fun f =>
                analyzeFile (fs.read f) f language servicesData).flatten :=
            List.mem_flatten.2 ⟨_, List.mem_map_of_mem _ hf, hd2⟩
          obtain ⟨kv, hkv, hn, q, hq, hqn⟩ := htrack.2 d2 hdet pi2 hpi2
          exact ⟨kv.2, List.mem_map_of_mem _ hkv, hn, q, hq, hqn⟩
    · exact ih r h1

/-- C5, witness: at the concrete two-language project, the Ruby result's
service ids are distinct and the package confirmed by its Gemfile is retained
in the stripe detection. -/
theorem analyzeProjectDependencies_per_language_merge_witness :
    ((⟨"ruby".data, ["Gemfile".data],
        [⟨"stripe".data, "ruby".data, [⟨"stripe".data, "Gemfile".data⟩]⟩]⟩ :
      DetectionResult).services.map ServiceDetection.name).Nodup ∧
      ∃ d ∈ (⟨"ruby".data, ["Gemfile".data],
          [⟨"stripe".data, "ruby".data, [⟨"stripe".data, "Gemfile".data⟩]⟩]⟩ :
        DetectionResult).services, d.name = "stripe".data ∧
          ∃ pi ∈ d.packages, pi.name = "stripe".data := by
  have h := analyzeProjectDependencies_per_language_merge
    ⟨fun pat => if pat == "Gemfile".data then ["Gemfile".data]
        else if pat == "package.json".data then ["package.json".data] else [],
     fun path => if path == "Gemfile".data then some "gem stripe".data
        else if path == "package.json".data then some "stripe: 1".data else none⟩
    ["ruby".data, "nodejs".data]
    ⟨[("ruby".data, ⟨[("bundler".data, ⟨["Gemfile".data]⟩)]⟩),
      ("nodejs".data, ⟨[("npm".data, ⟨["package.json".data]⟩)]⟩)]⟩
    [("stripe".data, ⟨"Stripe".data, "u".data,
        [("ruby".data, ["stripe".data]), ("nodejs".data, ["stripe".data])]⟩)]
    ⟨"ruby".data, ["Gemfile".data],
      [⟨"stripe".data, "ruby".data, [⟨"stripe".data, "Gemfile".data⟩]⟩]⟩
    (by decide)
  refine ⟨h.1, ?_⟩
  exact h.2.2 "Gemfile".data (by decide)
    ⟨"stripe".data, "ruby".data, [⟨"stripe".data, "Gemfile".data⟩]⟩ (by decide)
    ⟨"stripe".data, "Gemfile".data⟩ (by decide)

/-! ## Claim C1: the manifest scanner matches substrings, not tokens -/

/-- C1, counterexample: a file whose content is exactly `stripe-mock` makes the
scanner report the query `stripe` — the package test is `strings.Contains`, so
an occurrence strictly inside a larger token is reported. -/
theorem isPackageInFile_substring_counterexample :
    isPackageInFile "stripe-mock".data "Gemfile".data "stripe".data "ruby".data = true ∧
      analyzeFile (some "stripe-mock".data) "Gemfile".data "ruby".data
        [("stripe".data, ⟨"Stripe".data, "https://dashboard.stripe.com".data,
          [("ruby".data, ["stripe".data])]⟩)] =
        [⟨"stripe".data, "ruby".data, [⟨"stripe".data, "Gemfile".data⟩]⟩] :=
  ⟨by decide, by decide⟩

theorem analyzeFileStep_packages_substring (content fileName filePath language
    serviceName : Str) (sd : ServiceData) (d : ServiceDetection)
    (hd : d ∈ analyzeFileStep content fileName filePath language serviceName sd) :
    ∀ p ∈ d.packages, containsB content p.name = true := by
  intro p hp
  rw [analyzeFileStep] at hd
  cases hl : List.lookup language sd.Stacks with
  | none =>
    rw [hl] at hd
    simp only at hd
    cases hd
  | some packages =>
    rw [hl] at hd
    simp only at hd
    by_cases he : (packages.filterMap fun pkg =>
        if isPackageInFile content fileName pkg language then
          some (⟨pkg, filePath⟩ : PackageInfo) else none).isEmpty = true
    · rw [if_pos he] at hd
      cases hd
    · rw [if_neg he] at hd
      rw [List.mem_singleton] at hd
      subst hd
      simp only [List.mem_filterMap] at hp
      obtain ⟨pkg, hpkg, hf⟩ := hp
      by_cases hc : isPackageInFile content fileName pkg language = true
      · rw [if_pos hc] at hf
        cases hf
        exact hc
      · rw [if_neg hc] at hf
        cases hf

theorem analyzeFileStep_complete (content fileName filePath language serviceName : Str)
    (sd : ServiceData) (packages : List Str) (pkg : Str)
    (hl : List.lookup language sd.Stacks = some packages) (hpkg : pkg ∈ packages)
    (hc : isPackageInFile content fileName pkg language = true) :
    ∃ d ∈ analyzeFileStep content fileName filePath language serviceName sd,
      d.name = serviceName ∧ (⟨pkg, filePath⟩ : PackageInfo) ∈ d.packages := by
  rw [analyzeFileStep, hl]
  have hmemF : (⟨pkg, filePath⟩ : PackageInfo) ∈ packages.filterMap
      (fun pkg => if isPackageInFile content fileName pkg language then
        some (⟨pkg, filePath⟩ : PackageInfo) else none) :=
    List.mem_filterMap.2 ⟨pkg, hpkg, by rw [if_pos hc]⟩
  have hne := List.isEmpty_eq_false.2 (List.ne_nil_of_mem hmemF)
  simp only [hne, Bool.false_eq_true, if_false]
  exact ⟨_, List.mem_singleton.2 rfl, rfl, hmemF⟩

/-- C1 (amended): for every manifest handled by the scanner, a queried package
name `p` is reported exactly when `p` occurs as a substring of the file content
(`strings.Contains`, no tokenization): every reported package is a substring of
the content, and every cataloged package of the queried language that occurs as
a substring — even strictly inside a larger token such as `stripe-mock` — is
reported. -/
theorem analyzeFile_reports_iff_substring :
    (∀ (content filePath language : Str) (servicesData : List (Str × ServiceData))
      (d : ServiceDetection),
      d ∈ analyzeFile (some content) filePath language servicesData →
      ∀ p ∈ d.packages, containsB content p.name = true) ∧
    (∀ (content filePath language serviceName : Str) (sd : ServiceData)
      (packages : List Str) (pkg : Str) (servicesData : List (Str × ServiceData)),
      (serviceName, sd) ∈ servicesData →
      List.lookup language sd.Stacks = some packages →
      pkg ∈ packages → containsB content pkg = true →
      ∃ d ∈ analyzeFile (some content) filePath language servicesData,
        d.name = serviceName ∧ (⟨pkg, filePath⟩ : PackageInfo) ∈ d.packages) := by
  constructor
  · intro content filePath language servicesData
    rw [show analyzeFile (some content) filePath language servicesData =
      analyzeFileLoop content (filepathBase filePath) filePath language servicesData
      from rfl]
    induction servicesData with
    | nil =>
      intro d hd
      cases hd
    | cons hd_ rest ih =>
      obtain ⟨serviceName, sd⟩ := hd_
      intro d hd
      rw [analyzeFileLoop] at hd
      rcases List.mem_append.1 hd with h1 | h1
      · exact analyzeFileStep_packages_substring content _ filePath language
          serviceName sd d h1
      · exact ih d h1
  · intro content filePath language serviceName sd packages pkg servicesData
      hmem hl hpkg hc
    rw [show analyzeFile (some content) filePath language servicesData =
      analyzeFileLoop content (filepathBase filePath) filePath language servicesData
      from rfl]
    revert hmem
    induction servicesData with
    | nil =>
      intro hmem
      cases hmem
    | cons hd_ rest ih =>
      obtain ⟨sn, sd2⟩ := hd_
      intro hmem
      rw [analyzeFileLoop]
      rcases List.mem_cons.1 hmem with heq | hmem2
      · cases heq
        obtain ⟨d, hd1, hd2⟩ := analyzeFileStep_complete content (filepathBase filePath)
          filePath language serviceName sd packages pkg hl hpkg hc
        exact ⟨d, List.mem_append_left _ hd1, hd2⟩
      · obtain ⟨d, hd1, hd2⟩ := ih hmem2
        exact ⟨d, List.mem_append_right _ hd1, hd2⟩

/-- C1, witness: completeness instantiated at the `stripe-mock` manifest —
the substring occurrence is reported. -/
theorem analyzeFile_reports_iff_substring_witness :
    ∃ d ∈ analyzeFile (some "stripe-mock".data) "Gemfile".data "ruby".data
        [("stripe".data, ⟨"Stripe".data, "u".data, [("ruby".data, ["stripe".data])]⟩)],
      d.name = "stripe".data ∧
        (⟨"stripe".data, "Gemfile".data⟩ : PackageInfo) ∈ d.packages :=
  analyzeFile_reports_iff_substring.2 "stripe-mock".data "Gemfile".data "ruby".data
    "stripe".data ⟨"Stripe".data, "u".data, [("ruby".data, ["stripe".data])]⟩
    ["stripe".data] "stripe".data
    [("stripe".data, ⟨"Stripe".data, "u".data, [("ruby".data, ["stripe".data])]⟩)]
    (by decide) (by decide) (by decide) (by decide)

/-! ## Claim C2: category conflict resolution in the files detector -/

/-- C2, counterexample: both a GitHub-Actions directory and a GitLab CI file are
present (two matching technologies for the category), the published repo is
hosted elsewhere, both technologies carry a fallback URL — and the detector
emits nothing for the category: it is silently dropped instead of falling back. -/
theorem filesDetect_drops_category_counterexample :
    ([
      ("github-actions".data,
        (⟨[".github/workflows/".data], "{repo}/actions".data, [],
          "https://docs.github.com/actions".data⟩ : FilesGo.FilePattern)),
      ("gitlab".data,
        ⟨[".gitlab-ci.yml".data], "{repo}/-/pipelines".data, [],
          "https://docs.gitlab.com/ci".data⟩)].filter fun tp =>
        FilesGo.hasMatchingFiles
          ⟨fun p => if p == ".github/workflows".data then some true
              else if p == ".gitlab-ci.yml".data then some false else none,
            fun _ => []⟩ tp.2.files).length = 2 ∧
      FilesGo.Detect
        ⟨fun p => if p == ".github/workflows".data then some true
            else if p == ".gitlab-ci.yml".data then some false else none,
          fun _ => []⟩
        [("ci".data,
          [("github-actions".data,
            ⟨[".github/workflows/".data], "{repo}/actions".data, [],
              "https://docs.github.com/actions".data⟩),
          ("gitlab".data,
            ⟨[".gitlab-ci.yml".data], "{repo}/-/pipelines".data, [],
              "https://docs.gitlab.com/ci".data⟩)])]
        [("repo".data, "https://example.com/org/repo".data)] = [] :=
  ⟨by decide, by decide⟩

/-- C2 (amended): in a category with more than one matching technology, the
detector emits the first technology (in catalog order) whose hosting matches
the published `"repo"` value, with its URL built by `buildURL`; when no matching
technology's hosting matches the published repo value, no entry is emitted for
that category — it is dropped, not resolved through `fallback_url`. -/
theorem filesDetect_hosting_resolution :
    ∀ (fsv : FilesGo.FSView) (category : Str)
      (technologies : List (Str × FilesGo.FilePattern)) (ctx : KV),
      1 < (technologies.filter fun tp => FilesGo.hasMatchingFiles fsv tp.2.files).length →
      (∀ tp, (technologies.filter fun tp => FilesGo.hasMatchingFiles fsv tp.2.files).find?
          (fun tp => FilesGo.isMatchingHosting tp.1 ((List.lookup "repo".data ctx).getD []))
          = some tp →
        FilesGo.Detect fsv [(category, technologies)] ctx =
          [(category, FilesGo.buildURL tp.2 tp.1 ctx)]) ∧
      ((technologies.filter fun tp => FilesGo.hasMatchingFiles fsv tp.2.files).find?
          (fun tp => FilesGo.isMatchingHosting tp.1 ((List.lookup "repo".data ctx).getD []))
          = none →
        FilesGo.Detect fsv [(category, technologies)] ctx = []) := by
  intro fsv category technologies ctx h
  constructor
  · intro tp hf
    simp only [FilesGo.Detect, FilesGo.detectCategory, hf, h, if_true, List.append_nil]
  · intro hf
    simp only [FilesGo.Detect, FilesGo.detectCategory, hf, h, if_true, List.append_nil]

/-- C2, witness: scenario B — GitHub-Actions and GitLab CI both match and the
published repo is on gitlab.com, so the GitLab technology wins the category. -/
theorem filesDetect_hosting_resolution_witness :
    FilesGo.Detect
      ⟨fun p => if p == ".github/workflows".data then some true
          else if p == ".gitlab-ci.yml".data then some false else none,
        fun _ => []⟩
      [("ci".data,
        [("github-actions".data,
          ⟨[".github/workflows/".data], "{repo}/actions".data, [],
            "https://docs.github.com/actions".data⟩),
        ("gitlab".data,
          ⟨[".gitlab-ci.yml".data], "{repo}/-/pipelines".data, [],
            "https://docs.gitlab.com/ci".data⟩)])]
      [("repo".data, "https://gitlab.com/org/repo".data)] =
      [("ci".data, "https://gitlab.com/org/repo/-/pipelines".data)] := by
  have h := (filesDetect_hosting_resolution
    ⟨fun p => if p == ".github/workflows".data then some true
        else if p == ".gitlab-ci.yml".data then some false else none,
      fun _ => []⟩
    "ci".data
    [("github-actions".data,
      ⟨[".github/workflows/".data], "{repo}/actions".data, [],
        "https://docs.github.com/actions".data⟩),
    ("gitlab".data,
      ⟨[".gitlab-ci.yml".data], "{repo}/-/pipelines".data, [],
        "https://docs.gitlab.com/ci".data⟩)]
    [("repo".data, "https://gitlab.com/org/repo".data)] (by decide)).1
    ("gitlab".data,
      ⟨[".gitlab-ci.yml".data], "{repo}/-/pipelines".data, [],
        "https://docs.gitlab.com/ci".data⟩) (by decide)
  exact h.trans (by decide)

end Parascan
